import Mathlib

/-!
Verification of the skill-compiler compilation core: the IR model and its
`Merge` operation (internal/ir/ir.go), the cache/lockfile (internal/cache/cache.go),
and spec-level models of the OpenAPI parser's reference resolution and the
codebase scanner's MaxFiles truncation (whose Go implementations are exercised
by the tests shipped with the repository).

Go maps (`map[string]string`, `map[string]LockEntry`) are embedded as
association lists `List (String × α)`: lookup is the first matching key, and
map assignment `m[k] = v` replaces the binding for `k` in place (or appends a
fresh one). A real Go map has no duplicate keys, so theorems about maps carry a
`Nodup` hypothesis on the key list where the order of iteration matters.
-/

set_option autoImplicit false

namespace SkillCompiler

/-- Lookup in an association-list model of a Go map: first binding wins. -/
def assocGet {α : Type} (m : List (String × α)) (k : String) : Option α :=
  match m with
  | [] => none
  | (k', v) :: rest => if k' = k then some v else assocGet rest k

/-- Go map assignment `m[k] = v`: replace the binding for `k`, or append it. -/
def assocSet {α : Type} (m : List (String × α)) (k : String) (v : α) :
    List (String × α) :=
  match m with
  | [] => [(k, v)]
  | (k', v') :: rest =>
    if k' = k then (k, v) :: rest else (k', v') :: assocSet rest k v

theorem assocGet_assocSet {α : Type} (m : List (String × α)) (k : String) (v : α)
    (k' : String) :
    assocGet (assocSet m k v) k' = if k = k' then some v else assocGet m k' := by
  induction m with
  | nil =>
    by_cases h : k = k' <;> simp [assocSet, assocGet, h]
  | cons hd tl ih =>
    obtain ⟨a, b⟩ := hd
    by_cases hak : a = k
    · subst hak
      by_cases h : a = k' <;> simp [assocSet, assocGet, h]
    · by_cases hk : k = k'
      · subst hk
        simp [assocSet, assocGet, hak, ih]
      · simp [assocSet, assocGet, hak, ih, hk]

theorem assocGet_eq_none_of_not_mem {α : Type} (m : List (String × α)) (k : String)
    (h : k ∉ m.map Prod.fst) : assocGet m k = none := by
  induction m with
  | nil => rfl
  | cons hd tl ih =>
    obtain ⟨a, b⟩ := hd
    simp only [List.map_cons, List.mem_cons, not_or] at h
    have hne : ¬a = k := fun he => h.1 he.symm
    simp [assocGet, hne, ih h.2]

/-! ## IR data model, translated from internal/ir/ir.go -/

/-- Parameter represents a flag, query param, path param, or header. -/
structure Parameter where
  Name : String := ""
  In : String := ""
  Description : String := ""
  Required : Bool := false
  Type' : String := ""
  Default : String := ""
  Shorthand : String := ""
  deriving Repr, DecidableEq

/-- TypeField is a field within a TypeDef. -/
structure TypeField where
  Name : String := ""
  Type' : String := ""
  Description : String := ""
  Required : Bool := false
  deriving Repr, DecidableEq

/-- TypeDef represents a schema, message type, or complex value type. -/
structure TypeDef where
  Name : String := ""
  Description : String := ""
  Fields : List TypeField := []
  Enum : List String := []
  deriving Repr, DecidableEq

/-- TypeRef references a type by name, used for request/response bodies. -/
structure TypeRef where
  TypeName : String := ""
  Description : String := ""
  ContentType : String := ""
  deriving Repr, DecidableEq

/-- Response represents an HTTP response or command output. -/
structure Response where
  StatusCode : String := ""
  Description : String := ""
  Body : Option TypeRef := none
  deriving Repr, DecidableEq

/-- Operation represents an endpoint, command, or RPC. -/
structure Operation where
  ID : String := ""
  Name : String := ""
  Description : String := ""
  Method : String := ""
  Path : String := ""
  Parameters : List Parameter := []
  RequestBody : Option TypeRef := none
  Responses : List Response := []
  Tags : List String := []
  Deprecated : Bool := false
  Auth : List String := []
  Aliases : List String := []
  RawHelpText : String := ""
  deriving Repr, DecidableEq

/-- AuthScheme represents an authentication method. -/
structure AuthScheme where
  ID : String := ""
  Type' : String := ""
  Name : String := ""
  In : String := ""
  Scheme : String := ""
  Description : String := ""
  deriving Repr, DecidableEq

/-- Group organizes operations by resource, tag, or subcommand tree. -/
structure Group where
  Name : String := ""
  Description : String := ""
  Operations : List String := []
  deriving Repr, DecidableEq

/-- FileEntry is a file in the project tree. -/
structure FileEntry where
  Path : String := ""
  IsDir : Bool := false
  Size : Int := 0
  deriving Repr, DecidableEq

/-- StackInfo describes the project's technology stack. -/
structure StackInfo where
  Languages : List String := []
  Frameworks : List String := []
  BuildTools : List String := []
  Dependencies : List (String × String) := []
  Scripts : List (String × String) := []
  deriving Repr, DecidableEq

/-- ConfigFile is a parsed config file from the project. -/
structure ConfigFile where
  Path : String := ""
  Content : String := ""
  deriving Repr, DecidableEq

/-- DocFile is an existing documentation file. -/
structure DocFile where
  Path : String := ""
  Content : String := ""
  deriving Repr, DecidableEq

/-- KeyFile is an important source file identified by the scanner. -/
structure KeyFile where
  Path : String := ""
  Content : String := ""
  Role : String := ""
  deriving Repr, DecidableEq

/-- ProjectStructure holds codebase scan results (codebase plugin only). -/
structure ProjectStructure where
  FileTree : List FileEntry := []
  Stack : Option StackInfo := none
  EntryPoints : List String := []
  ConfigFiles : List ConfigFile := []
  Docs : List DocFile := []
  KeyFiles : List KeyFile := []
  deriving Repr, DecidableEq

/-- IntermediateRepr is the normalized representation all spec plugins parse into. -/
structure IntermediateRepr where
  Operations : List Operation := []
  Types : List TypeDef := []
  Auth : List AuthScheme := []
  Groups : List Group := []
  Structure : Option ProjectStructure := none
  Metadata : List (String × String) := []
  deriving Repr, DecidableEq

/-- Merge combines another IR into this one (internal/ir/ir.go, `Merge`).
The Go method mutates the receiver; it is embedded as a function returning the
mutated receiver. The Go `other == nil` guard falls away because `other` is a
value here; the `ir.Metadata == nil` guard is the identity on the list model. -/
def IntermediateRepr.Merge (ir other : IntermediateRepr) : IntermediateRepr :=
  let merged : IntermediateRepr :=
    { ir with
      Operations := ir.Operations ++ other.Operations
      Types := ir.Types ++ other.Types
      Auth := ir.Auth ++ other.Auth
      Groups := ir.Groups ++ other.Groups }
  let merged : IntermediateRepr :=
    match other.Structure with
    | none => merged
    | some os =>
      match ir.Structure with
      | none => { merged with Structure := some os }
      | some s =>
        { merged with
          Structure := some
            { s with
              FileTree := s.FileTree ++ os.FileTree
              EntryPoints := s.EntryPoints ++ os.EntryPoints
              ConfigFiles := s.ConfigFiles ++ os.ConfigFiles
              Docs := s.Docs ++ os.Docs
              KeyFiles := s.KeyFiles ++ os.KeyFiles } }
  { merged with
    Metadata := other.Metadata.foldl (fun m kv => assocSet m kv.1 kv.2) ir.Metadata }

theorem assocGet_foldl_assocSet {α : Type} (entries : List (String × α))
    (m : List (String × α)) (k : String) (hnd : (entries.map Prod.fst).Nodup) :
    assocGet (entries.foldl (fun acc kv => assocSet acc kv.1 kv.2) m) k =
      match assocGet entries k with
      | some v => some v
      | none => assocGet m k := by
  induction entries generalizing m with
  | nil => rfl
  | cons hd tl ih =>
    obtain ⟨a, b⟩ := hd
    simp only [List.foldl_cons]
    simp only [List.map_cons, List.nodup_cons] at hnd
    rw [ih _ hnd.2]
    by_cases hak : a = k
    · subst hak
      have htl : assocGet tl a = none := assocGet_eq_none_of_not_mem _ _ hnd.1
      simp [assocGet, htl, assocGet_assocSet]
    · cases h : assocGet tl k <;>
        simp [assocGet, hak, h, assocGet_assocSet]

theorem merge_metadata_eq (a b : IntermediateRepr) :
    (a.Merge b).Metadata =
      b.Metadata.foldl (fun m kv => assocSet m kv.1 kv.2) a.Metadata := by
  unfold IntermediateRepr.Merge
  cases b.Structure <;> cases a.Structure <;> rfl

/-- C1: `Merge` appends the incoming IR's `Operations`, `Types`, `Auth` and
`Groups` after the accumulator's existing entries, order-preserving and with no
deduplication; in particular `Merge(A,B).Operations = A.Operations ++ B.Operations`. -/
theorem merge_appends_sequences (a b : IntermediateRepr) :
    (a.Merge b).Operations = a.Operations ++ b.Operations ∧
    (a.Merge b).Types = a.Types ++ b.Types ∧
    (a.Merge b).Auth = a.Auth ++ b.Auth ∧
    (a.Merge b).Groups = a.Groups ++ b.Groups := by
  unfold IntermediateRepr.Merge
  cases b.Structure <;> cases a.Structure <;> exact ⟨rfl, rfl, rfl, rfl⟩

/-- C2: after `Merge`, a metadata key present in the incoming IR carries the
incoming value (last write wins), and a key present only in the accumulator
keeps its prior value. The `Nodup` hypothesis is the Go map invariant that
`other.Metadata` has no duplicate keys. -/
theorem merge_metadata_last_write_wins (a b : IntermediateRepr) (k : String)
    (hnd : (b.Metadata.map Prod.fst).Nodup) :
    (∀ v, assocGet b.Metadata k = some v →
      assocGet (a.Merge b).Metadata k = some v) ∧
    (assocGet b.Metadata k = none →
      assocGet (a.Merge b).Metadata k = assocGet a.Metadata k) := by
  rw [merge_metadata_eq, assocGet_foldl_assocSet _ _ _ hnd]
  constructor
  · intro v hv
    simp [hv]
  · intro hv
    simp [hv]

/-- Witness for C2: `A.Metadata["k"]="1"`, `B.Metadata["k"]="2"` gives
`Merge(A,B).Metadata["k"]="2"`, and a key only in `A` survives. -/
theorem merge_metadata_last_write_wins_witness :
    (((([("k", "2")] : List (String × String))).map Prod.fst).Nodup ∧
      assocGet ([("k", "2")] : List (String × String)) "k" = some "2") ∧
    assocGet
      (IntermediateRepr.Merge { Metadata := [("k", "1")] }
        { Metadata := [("k", "2")] }).Metadata "k" = some "2" :=
  ⟨⟨by decide, by decide⟩,
    (merge_metadata_last_write_wins { Metadata := [("k", "1")] }
      { Metadata := [("k", "2")] } "k" (by decide)).1 "2" (by decide)⟩

/-- C9: when both the accumulator's and the incoming IR's `Structure` are
present, the merged IR keeps the accumulator's `Structure.Stack` unchanged and
the incoming `StackInfo` is discarded entirely. -/
theorem merge_keeps_accumulator_stack (a b : IntermediateRepr)
    (sa sb : ProjectStructure) (ha : a.Structure = some sa)
    (hb : b.Structure = some sb) :
    ∃ s, (a.Merge b).Structure = some s ∧ s.Stack = sa.Stack := by
  unfold IntermediateRepr.Merge
  rw [hb, ha]
  exact ⟨_, rfl, rfl⟩

/-- Witness for C9: the accumulator's stack lists language Go, the incoming
stack lists language Rust; the merged stack is the accumulator's. -/
theorem merge_keeps_accumulator_stack_witness :
    ∃ s,
      (IntermediateRepr.Merge
        { Structure := some { Stack := some { Languages := ["Go"] } } }
        { Structure := some { Stack := some { Languages := ["Rust"] } } }).Structure =
          some s ∧
      s.Stack = some { Languages := ["Go"] } :=
  merge_keeps_accumulator_stack
    { Structure := some { Stack := some { Languages := ["Go"] } } }
    { Structure := some { Stack := some { Languages := ["Rust"] } } }
    { Stack := some { Languages := ["Go"] } }
    { Stack := some { Languages := ["Rust"] } } rfl rfl

/-! ## Cache & lockfile, translated from internal/cache/cache.go -/

/-- LockEntry records hashes and metadata for a single artifact. -/
structure LockEntry where
  InputHash : String := ""
  OutputHash : String := ""
  Timestamp : String := ""
  Model : String := ""
  deriving Repr, DecidableEq

/-- LockFile represents the .sc-lock.json structure; the Go
`map[string]LockEntry` is embedded as an association list. -/
structure LockFile where
  Artifacts : List (String × LockEntry) := []
  deriving Repr, DecidableEq

/-- IsUpToDate checks if an artifact's input hash matches the lockfile
(internal/cache/cache.go, `IsUpToDate`): false when the artifact has no entry,
otherwise the stored `InputHash` is compared for equality. -/
def LockFile.IsUpToDate (lf : LockFile) (artifactID inputHash : String) : Bool :=
  match assocGet lf.Artifacts artifactID with
  | none => false
  | some entry => entry.InputHash == inputHash

/-- Result of the Go `os.ReadFile` call inside `LoadLockFile`: the file is
absent, the read fails with some other error, or it yields the file's bytes. -/
inductive ReadFileResult where
  | notExist
  | otherError (msg : String)
  | ok (data : String)
  deriving Repr, DecidableEq

/-- LoadLockFile reads .sc-lock.json (internal/cache/cache.go, `LoadLockFile`),
embedded over the outcome of the file read. `unmarshal` stands for the stdlib
`json.Unmarshal` call: `none` is a parse failure, `some arts` a success whose
`arts = none` is the Go case of a JSON document with a nil `Artifacts` map,
which the function normalizes to an empty map. -/
def LoadLockFile (read : ReadFileResult)
    (unmarshal : String → Option (Option (List (String × LockEntry)))) :
    Except String LockFile :=
  match read with
  | .notExist => .ok { Artifacts := [] }
  | .otherError msg => .error ("reading lockfile: " ++ msg)
  | .ok data =>
    match unmarshal data with
    | none => .error "parsing lockfile"
    | some arts => .ok { Artifacts := arts.getD [] }

/-- One filesystem effect performed by the cache layer. -/
inductive FsOp where
  | writeFile (path : String) (data : String)
  | mkdirAll (path : String)
  | rename (src dst : String)
  deriving Repr, DecidableEq

def FsOp.isRename : FsOp → Bool
  | .rename _ _ => true
  | _ => false

/-- CacheDir returns the .sc-cache directory path (internal/cache/cache.go);
`filepath.Join` on clean relative components is path concatenation. -/
def CacheDir (projectDir : String) : String :=
  projectDir ++ "/.sc-cache"

/-- The filesystem effects of SaveLockFile (internal/cache/cache.go,
`SaveLockFile`): one direct `os.WriteFile` of the marshaled lockfile bytes to
`<dir>/.sc-lock.json`. `data` stands for the `json.MarshalIndent` output. -/
def SaveLockFileOps (dir : String) (data : String) : List FsOp :=
  [FsOp.writeFile (dir ++ "/.sc-lock.json") data]

/-- The filesystem effects of WriteCached (internal/cache/cache.go,
`WriteCached`): `os.MkdirAll` on the cache directory, then one direct
`os.WriteFile` of the content to `<cacheDir>/<artifactID>`. -/
def WriteCachedOps (projectDir artifactID content : String) : List FsOp :=
  [FsOp.mkdirAll (CacheDir projectDir),
   FsOp.writeFile (CacheDir projectDir ++ "/" ++ artifactID) content]

/-- C4: `IsUpToDate(artifactID, inputHash)` is true iff the lockfile has an
entry for that artifact whose stored `InputHash` equals the given hash; with no
entry the result is always false. -/
theorem isUpToDate_iff (lf : LockFile) (artifactID inputHash : String) :
    (lf.IsUpToDate artifactID inputHash = true ↔
      ∃ entry, assocGet lf.Artifacts artifactID = some entry ∧
        entry.InputHash = inputHash) ∧
    (assocGet lf.Artifacts artifactID = none →
      lf.IsUpToDate artifactID inputHash = false) := by
  constructor
  · unfold LockFile.IsUpToDate
    cases h : assocGet lf.Artifacts artifactID with
    | none => simp
    | some entry => simp [beq_iff_eq]
  · intro h
    unfold LockFile.IsUpToDate
    rw [h]

/-- Witness for C4: a one-entry lockfile is up to date exactly on the stored
hash, and an unknown artifact is never up to date. -/
theorem isUpToDate_iff_witness :
    (({ Artifacts := [("a", { InputHash := "h1" })] } : LockFile).IsUpToDate
        "a" "h1" = true) ∧
    (assocGet ({ Artifacts := [("a", { InputHash := "h1" })] } : LockFile).Artifacts
        "b" = none ∧
      ({ Artifacts := [("a", { InputHash := "h1" })] } : LockFile).IsUpToDate
        "b" "h1" = false) :=
  ⟨((isUpToDate_iff { Artifacts := [("a", { InputHash := "h1" })] } "a" "h1").1).2
      ⟨{ InputHash := "h1" }, by decide, rfl⟩,
    by decide,
    (isUpToDate_iff { Artifacts := [("a", { InputHash := "h1" })] } "b" "h1").2
      (by decide)⟩

/-- Two artifact tables agree entry-by-entry on keys and stored input hashes;
`OutputHash`, `Timestamp` and `Model` may differ arbitrarily. -/
def InputHashAgree (xs ys : List (String × LockEntry)) : Prop :=
  List.Forall₂ (fun a b => a.1 = b.1 ∧ a.2.InputHash = b.2.InputHash) xs ys

theorem assocGet_inputHash_agree (xs ys : List (String × LockEntry))
    (h : InputHashAgree xs ys) (k : String) :
    Option.map LockEntry.InputHash (assocGet xs k) =
      Option.map LockEntry.InputHash (assocGet ys k) ∧
    ((assocGet xs k).isSome = (assocGet ys k).isSome) := by
  induction h with
  | nil => exact ⟨rfl, rfl⟩
  | cons hd tl ih =>
    rename_i a b xs' ys'
    obtain ⟨hk, hih⟩ := hd
    by_cases hak : a.1 = k
    · simp [assocGet, hak, hk ▸ hak, hih]
    · have hbk : ¬b.1 = k := hk ▸ hak
      simpa [assocGet, hak, hbk] using ih

/-- C5: the staleness decision never consults `OutputHash` (nor `Timestamp`
nor `Model`): two lockfiles whose artifact tables agree on keys and stored
`InputHash` values give identical `IsUpToDate` results everywhere. -/
theorem isUpToDate_ignores_outputHash (lf₁ lf₂ : LockFile)
    (h : InputHashAgree lf₁.Artifacts lf₂.Artifacts)
    (artifactID inputHash : String) :
    lf₁.IsUpToDate artifactID inputHash = lf₂.IsUpToDate artifactID inputHash := by
  obtain ⟨hmap, hsome⟩ := assocGet_inputHash_agree _ _ h artifactID
  unfold LockFile.IsUpToDate
  cases h₁ : assocGet lf₁.Artifacts artifactID with
  | none =>
    cases h₂ : assocGet lf₂.Artifacts artifactID with
    | none => rfl
    | some e₂ => rw [h₁, h₂] at hsome; simp at hsome
  | some e₁ =>
    cases h₂ : assocGet lf₂.Artifacts artifactID with
    | none => rw [h₁, h₂] at hsome; simp at hsome
    | some e₂ =>
      rw [h₁, h₂] at hmap
      simp only [Option.map_some'] at hmap
      show (e₁.InputHash == inputHash) = (e₂.InputHash == inputHash)
      rw [Option.some_inj.mp hmap]

/-- A concrete lockfile for the C5 witness. -/
def lockFileO1 : LockFile :=
  { Artifacts :=
      [("a",
        { InputHash := "h1", OutputHash := "o1", Timestamp := "t1", Model := "m1" })] }

/-- The same lockfile as `lockFileO1` except for `OutputHash`, `Timestamp`
and `Model`. -/
def lockFileO2 : LockFile :=
  { Artifacts :=
      [("a",
        { InputHash := "h1", OutputHash := "o2", Timestamp := "t2", Model := "m2" })] }

/-- Witness for C5: two lockfiles identical except in `OutputHash`,
`Timestamp` and `Model` decide staleness identically at a concrete query. -/
theorem isUpToDate_ignores_outputHash_witness :
    InputHashAgree lockFileO1.Artifacts lockFileO2.Artifacts ∧
    lockFileO1.IsUpToDate "a" "h1" = lockFileO2.IsUpToDate "a" "h1" :=
  ⟨List.Forall₂.cons ⟨rfl, rfl⟩ List.Forall₂.nil,
    isUpToDate_ignores_outputHash lockFileO1 lockFileO2
      (List.Forall₂.cons ⟨rfl, rfl⟩ List.Forall₂.nil) "a" "h1"⟩

/-- C6: `LoadLockFile` on an absent lockfile succeeds with an empty,
always-stale lockfile; on an existing but unparseable lockfile it returns an
error instead of silently discarding the corrupt content. -/
theorem loadLockFile_absent_vs_corrupt
    (unmarshal : String → Option (Option (List (String × LockEntry))))
    (data : String) (hcorrupt : unmarshal data = none) :
    (LoadLockFile .notExist unmarshal = .ok { Artifacts := [] } ∧
      ∀ artifactID inputHash,
        LockFile.IsUpToDate { Artifacts := [] } artifactID inputHash = false) ∧
    LoadLockFile (.ok data) unmarshal = .error "parsing lockfile" := by
  refine ⟨⟨rfl, fun artifactID inputHash => rfl⟩, ?_⟩
  simp only [LoadLockFile, hcorrupt]

/-- Witness for C6: a decoder that rejects the concrete content `"{corrupt"`
makes `LoadLockFile` fail on it, while the absent-file case still returns the
empty lockfile. -/
theorem loadLockFile_absent_vs_corrupt_witness :
    ((fun _ : String => (none : Option (Option (List (String × LockEntry)))))
        "\x7bcorrupt" = none) ∧
    (LoadLockFile .notExist
        (fun _ => (none : Option (Option (List (String × LockEntry))))) =
      .ok { Artifacts := [] } ∧
      LoadLockFile (.ok "\x7bcorrupt")
        (fun _ => (none : Option (Option (List (String × LockEntry))))) =
      .error "parsing lockfile") :=
  ⟨rfl,
    ((loadLockFile_absent_vs_corrupt (fun _ => none) "\x7bcorrupt" rfl).1).1,
    (loadLockFile_absent_vs_corrupt (fun _ => none) "\x7bcorrupt" rfl).2⟩

/-- C7 counterexample: at the concrete inputs `dir = "proj"`, marshaled data
`"data"`, artifact `"a"`, content `"c"`, neither `SaveLockFile` nor
`WriteCached` performs any rename: each writes directly to the final target
path, so there is no write-to-temporary-then-rename step at all. -/
theorem saveLockFile_writeCached_no_rename :
    (SaveLockFileOps "proj" "data" ++ WriteCachedOps "proj" "a" "c").all
        (fun op => ! op.isRename) = true ∧
    SaveLockFileOps "proj" "data" =
      [FsOp.writeFile "proj/.sc-lock.json" "data"] ∧
    WriteCachedOps "proj" "a" "c" =
      [FsOp.mkdirAll "proj/.sc-cache",
       FsOp.writeFile "proj/.sc-cache/a" "c"] := by
  refine ⟨rfl, rfl, rfl⟩

/-- C7 amended: `SaveLockFile` performs exactly one direct `os.WriteFile` to
`<dir>/.sc-lock.json`, and `WriteCached` performs `os.MkdirAll` followed by
exactly one direct `os.WriteFile` to `<cacheDir>/<artifactID>`; no temporary
file is written and no rename is performed, so the writes are not atomic
write-then-replace. -/
theorem saveLockFile_writeCached_direct_write
    (dir data projectDir artifactID content : String) :
    SaveLockFileOps dir data =
      [FsOp.writeFile (dir ++ "/.sc-lock.json") data] ∧
    WriteCachedOps projectDir artifactID content =
      [FsOp.mkdirAll (CacheDir projectDir),
       FsOp.writeFile (CacheDir projectDir ++ "/" ++ artifactID) content] ∧
    (SaveLockFileOps dir data).all (fun op => ! op.isRename) = true ∧
    (WriteCachedOps projectDir artifactID content).all
      (fun op => ! op.isRename) = true :=
  ⟨rfl, rfl, rfl, rfl⟩

/-! ## SHA-256 and HashInput (internal/cache/cache.go, `HashInput`)

Go strings are byte strings; `crypto/sha256`'s streaming hasher digests the
stream of all bytes written to it. The hasher is embedded as the list of bytes
written so far, with `Sum` running a full executable SHA-256 over that list.
Bytes and 32-bit words are `Nat` reduced mod 2^8 / 2^32. -/

/-- Truncate to a 32-bit word. -/
def u32 (x : Nat) : Nat := x % 4294967296

/-- 32-bit rotate right. -/
def rotr32 (x n : Nat) : Nat := u32 ((x >>> n) ||| (x <<< (32 - n)))

def shaSigmaSmall0 (x : Nat) : Nat := rotr32 x 7 ^^^ rotr32 x 18 ^^^ (x >>> 3)

def shaSigmaSmall1 (x : Nat) : Nat := rotr32 x 17 ^^^ rotr32 x 19 ^^^ (x >>> 10)

def shaSigmaBig0 (x : Nat) : Nat := rotr32 x 2 ^^^ rotr32 x 13 ^^^ rotr32 x 22

def shaSigmaBig1 (x : Nat) : Nat := rotr32 x 6 ^^^ rotr32 x 11 ^^^ rotr32 x 25

def shaCh (x y z : Nat) : Nat := (x &&& y) ^^^ ((x ^^^ 4294967295) &&& z)

def shaMaj (x y z : Nat) : Nat := (x &&& y) ^^^ (x &&& z) ^^^ (y &&& z)

/-- The 64 SHA-256 round constants (FIPS 180-4, written in decimal). -/
def shaK : List Nat :=
  [1116352408, 1899447441, 3049323471, 3921009573, 961987163,
   1508970993, 2453635748, 2870763221, 3624381080, 310598401,
   607225278, 1426881987, 1925078388, 2162078206, 2614888103,
   3248222580, 3835390401, 4022224774, 264347078, 604807628,
   770255983, 1249150122, 1555081692, 1996064986, 2554220882,
   2821834349, 2952996808, 3210313671, 3336571891, 3584528711,
   113926993, 338241895, 666307205, 773529912, 1294757372,
   1396182291, 1695183700, 1986661051, 2177026350, 2456956037,
   2730485921, 2820302411, 3259730800, 3345764771, 3516065817,
   3600352804, 4094571909, 275423344, 430227734, 506948616,
   659060556, 883997877, 958139571, 1322822218, 1537002063,
   1747873779, 1955562222, 2024104815, 2227730452, 2361852424,
   2428436474, 2756734187, 3204031479, 3329325298]

/-- The SHA-256 initial hash value (FIPS 180-4, written in decimal). -/
def shaH0 : List Nat :=
  [1779033703, 3144134277, 1013904242, 2773480762,
   1359893119, 2600822924, 528734635, 1541459225]

/-- `n` bytes of `x`, big-endian. -/
def toBytesBE (n : Nat) (x : Nat) : List Nat :=
  match n with
  | 0 => []
  | m + 1 => toBytesBE m (x >>> 8) ++ [x % 256]

/-- SHA-256 padding: append 0x80, zeros to 56 mod 64, then the bit length as
8 big-endian bytes. -/
def padMessage (msg : List Nat) : List Nat :=
  let len := msg.length
  let padZeros := (120 - (len + 1) % 64) % 64
  msg ++ [0x80] ++ List.replicate padZeros 0 ++ toBytesBE 8 (len * 8)

/-- Group bytes into big-endian 32-bit words. -/
def bytesToWords : List Nat → List Nat
  | b0 :: b1 :: b2 :: b3 :: rest =>
    ((b0 <<< 24) ||| (b1 <<< 16) ||| (b2 <<< 8) ||| b3) :: bytesToWords rest
  | _ => []

set_option linter.unusedVariables false in
/-- Split a byte list into 64-byte chunks. -/
def chunks64 (bs : List Nat) : List (List Nat) :=
  if hne : bs = [] then []
  else bs.take 64 :: chunks64 (bs.drop 64)
termination_by bs.length
decreasing_by
  have hpos : 0 < bs.length := List.length_pos.mpr hne
  simp only [List.length_drop]
  omega

/-- Append the next word of the SHA-256 message schedule. -/
def scheduleStep (w : List Nat) : List Nat :=
  let t := w.length
  w ++ [u32 (shaSigmaSmall1 (w.getD (t - 2) 0) + w.getD (t - 7) 0 +
             shaSigmaSmall0 (w.getD (t - 15) 0) + w.getD (t - 16) 0)]

def iterate' {α : Type} (f : α → α) : Nat → α → α
  | 0, a => a
  | n + 1, a => iterate' f n (f a)

/-- Extend a 16-word block to the 64-word message schedule. -/
def schedule (block : List Nat) : List Nat := iterate' scheduleStep 48 block

/-- One SHA-256 round on the working state `[a,b,c,d,e,f,g,h]`. -/
def compressRound (st : List Nat) (kw : Nat × Nat) : List Nat :=
  let a := st.getD 0 0
  let b := st.getD 1 0
  let c := st.getD 2 0
  let d := st.getD 3 0
  let e := st.getD 4 0
  let f := st.getD 5 0
  let g := st.getD 6 0
  let h := st.getD 7 0
  let t1 := u32 (h + shaSigmaBig1 e + shaCh e f g + kw.1 + kw.2)
  let t2 := u32 (shaSigmaBig0 a + shaMaj a b c)
  [u32 (t1 + t2), a, b, c, u32 (d + t1), e, f, g]

/-- Process one 64-byte block into the running hash value. -/
def processBlock (h : List Nat) (block : List Nat) : List Nat :=
  let w := schedule (bytesToWords block)
  let st := (shaK.zip w).foldl compressRound h
  (h.zip st).map (fun p => u32 (p.1 + p.2))

/-- Full SHA-256 digest (32 bytes) of a byte list. -/
def sha256Bytes (msg : List Nat) : List Nat :=
  let final := (chunks64 (padMessage msg)).foldl processBlock shaH0
  (final.map (toBytesBE 4)).flatten

def hexDigit (n : Nat) : Char :=
  if n < 10 then Char.ofNat (48 + n) else Char.ofNat (87 + n)

/-- Lowercase hex encoding of a byte list, as in `hex.EncodeToString`. -/
def hexEncodeBytes (bs : List Nat) : String :=
  String.mk ((bs.map (fun b => [hexDigit (b / 16), hexDigit (b % 16)])).flatten)

/-- UTF-8 bytes of one character, as `Nat`s. -/
def utf8CharBytes (c : Char) : List Nat :=
  let n := c.toNat
  if n < 0x80 then [n]
  else if n < 0x800 then
    [0xc0 ||| (n >>> 6), 0x80 ||| (n &&& 0x3f)]
  else if n < 0x10000 then
    [0xe0 ||| (n >>> 12), 0x80 ||| ((n >>> 6) &&& 0x3f), 0x80 ||| (n &&& 0x3f)]
  else
    [0xf0 ||| (n >>> 18), 0x80 ||| ((n >>> 12) &&& 0x3f),
     0x80 ||| ((n >>> 6) &&& 0x3f), 0x80 ||| (n &&& 0x3f)]

/-- The bytes of a Go string (`[]byte(s)`): UTF-8 encoding of its characters. -/
def strBytes (s : String) : List Nat := s.data.flatMap utf8CharBytes

theorem strBytes_append (a b : String) :
    strBytes (a ++ b) = strBytes a ++ strBytes b := by
  simp [strBytes, String.data_append]

/-- The streaming hasher of `crypto/sha256`: `h.Write(bs)` appends `bs` to the
stream of written bytes, `h.Sum(nil)` digests the whole stream. -/
structure Sha256Hasher where
  written : List Nat
  deriving Repr, DecidableEq

/-- `sha256.New()`. -/
def sha256New : Sha256Hasher := ⟨[]⟩

/-- `h.Write(bs)`. -/
def Sha256Hasher.write (h : Sha256Hasher) (bs : List Nat) : Sha256Hasher :=
  ⟨h.written ++ bs⟩

/-- `h.Sum(nil)`. -/
def Sha256Hasher.sum (h : Sha256Hasher) : List Nat := sha256Bytes h.written

/-- HashInput computes a SHA-256 hash of the given inputs for an artifact
(internal/cache/cache.go, `HashInput`): three successive writes, then the
hex-encoded digest. -/
def HashInput (specContent instructionsSections systemPrompt : String) : String :=
  let h := sha256New
  let h := h.write (strBytes specContent)
  let h := h.write (strBytes instructionsSections)
  let h := h.write (strBytes systemPrompt)
  hexEncodeBytes h.sum

/-- HashOutput computes a SHA-256 hash of the artifact output
(internal/cache/cache.go, `HashOutput`). -/
def HashOutput (content : String) : String :=
  hexEncodeBytes (Sha256Hasher.sum (sha256New.write (strBytes content)))

/-- C10: `HashInput` depends only on the byte concatenation of its three
arguments: when `a ++ b ++ c = d ++ e ++ f`, the digests coincide, so moving
bytes across an argument boundary leaves the digest unchanged. -/
theorem hashInput_depends_only_on_concatenation (a b c d e f : String)
    (h : a ++ b ++ c = d ++ e ++ f) : HashInput a b c = HashInput d e f := by
  have key : strBytes a ++ strBytes b ++ strBytes c =
      strBytes d ++ strBytes e ++ strBytes f := by
    rw [← strBytes_append, ← strBytes_append, ← strBytes_append,
      ← strBytes_append, h]
  simp only [HashInput, sha256New, Sha256Hasher.write, Sha256Hasher.sum,
    List.nil_append, List.append_assoc] at *
  rw [key]

/-- Witness for C10: `HashInput("ab","c","p") = HashInput("a","bc","p")`. -/
theorem hashInput_depends_only_on_concatenation_witness :
    ("ab" ++ "c" ++ "p" = "a" ++ "bc" ++ "p") ∧
    HashInput "ab" "c" "p" = HashInput "a" "bc" "p" :=
  ⟨rfl, hashInput_depends_only_on_concatenation "ab" "c" "p" "a" "bc" "p" rfl⟩

/-! ## Codebase scanner file listing, modelled from the spec

The Go implementation of the codebase scanner (package `codebase`) is not among
the provided sources; only its tests are. Its file-listing behavior is
modelled here from the spec: the scanner walks the directory tree, excludes
paths matched by the ignore rules and `source.Exclude` patterns, and enforces
`source.MaxFiles` by truncating the emitted file list deterministically under
a stable lexical ordering, so repeated scans of an unchanged tree yield an
identical truncated set. -/

/-- Insert a path into a lexically sorted list. -/
def insertLex (p : String) : List String → List String
  | [] => [p]
  | q :: rest => if p ≤ q then p :: q :: rest else q :: insertLex p rest

/-- Stable lexical (insertion) sort of a path list. -/
def sortLex : List String → List String
  | [] => []
  | p :: rest => insertLex p (sortLex rest)

theorem length_insertLex (p : String) (l : List String) :
    (insertLex p l).length = l.length + 1 := by
  induction l with
  | nil => rfl
  | cons q rest ih =>
    by_cases h : p ≤ q <;> simp [insertLex, h, ih]

theorem length_sortLex (l : List String) : (sortLex l).length = l.length := by
  induction l with
  | nil => rfl
  | cons p rest ih => simp [sortLex, length_insertLex, ih]

/-- Modelled from the spec: the codebase scanner's emitted file list. The walk
of the tree yields the non-excluded file paths; the list is put in stable
lexical order and, when `source.MaxFiles` is set (nonzero), truncated to the
first `maxFiles` entries. -/
def scanFiles (tree : List String) (excluded : String → Bool) (maxFiles : Nat) :
    List String :=
  let kept := sortLex (tree.filter (fun p => ! excluded p))
  if maxFiles = 0 then kept else kept.take maxFiles

/-- C8: with `MaxFiles = n` set and more than `n` non-excluded files in the
tree, the scanner returns exactly `n` entries, namely the first `n` of the
stable lexical ordering of the non-excluded files, and a repeated scan of the
unchanged tree returns the identical entries in the identical order. -/
theorem scanner_maxFiles_truncates (tree : List String) (excluded : String → Bool)
    (n : Nat) (hn : 0 < n)
    (hcount : n < (tree.filter (fun p => ! excluded p)).length) :
    (scanFiles tree excluded n).length = n ∧
    scanFiles tree excluded n =
      (sortLex (tree.filter (fun p => ! excluded p))).take n ∧
    scanFiles tree excluded n = scanFiles tree excluded n := by
  have hne : ¬n = 0 := Nat.pos_iff_ne_zero.mp hn
  refine ⟨?_, by simp [scanFiles, hne], rfl⟩
  simp only [scanFiles, hne, if_false, List.length_take, length_sortLex]
  omega

/-- A 20-file tree for the C8 witness. -/
def witnessTree : List String :=
  ["ft.txt", "fa.txt", "fb.txt", "fc.txt", "fd.txt", "fe.txt", "ff.txt",
   "fg.txt", "fh.txt", "fi.txt", "fj.txt", "fk.txt", "fl.txt", "fm.txt",
   "fn.txt", "fo.txt", "fp.txt", "fq.txt", "fr.txt", "fs.txt"]

/-- Witness for C8: `MaxFiles = 5` on a 20-file tree with nothing excluded
returns exactly the first 5 paths of the lexical ordering. -/
theorem scanner_maxFiles_truncates_witness :
    (0 < 5 ∧ 5 < (witnessTree.filter (fun _ => ! false)).length) ∧
    (scanFiles witnessTree (fun _ => false) 5).length = 5 ∧
    scanFiles witnessTree (fun _ => false) 5 =
      (sortLex (witnessTree.filter (fun _ => ! false))).take 5 :=
  ⟨⟨by decide, by decide⟩,
    (scanner_maxFiles_truncates witnessTree (fun _ => false) 5 (by decide)
      (by decide)).1,
    (scanner_maxFiles_truncates witnessTree (fun _ => false) 5 (by decide)
      (by decide)).2.1⟩

/-! ## OpenAPI parser reference resolution, modelled from the spec

The Go implementation of the OpenAPI parser (package `openapi`) is not among
the provided sources; only its tests are. Its `Parse` is modelled here from
the spec: every local schema reference appearing in request bodies, response
bodies and parameter schemas is resolved into a `TypeDef` named by the final
path segment of the reference, resolution follows references nested inside
referenced schemas transitively, and an unresolvable reference is a parse
error, never a silent drop. A document is already flattened into its
path+method pairs; a schema is its description plus named fields whose type is
either a primitive name or a reference to another component schema. -/

/-- The type of one schema field: a primitive type name, or a `$ref` to a
component schema given by its final path segment. -/
inductive FieldKind where
  | prim (t : String)
  | ref (name : String)
  deriving Repr, DecidableEq

/-- One component schema of the document. -/
structure OASchema where
  description : String := ""
  fields : List (String × FieldKind) := []
  deriving Repr, DecidableEq

/-- One flattened path+method pair of the document. A `some name` in
`requestBodyRef`, in a response's second component, or in a parameter's second
component is a `$ref` to a component schema; `none` means no body /
no referenced schema. -/
structure OAOperation where
  operationId : String := ""
  method : String := ""
  path : String := ""
  requestBodyRef : Option String := none
  responses : List (String × Option String) := []
  paramSchemaRefs : List (String × Option String) := []
  deriving Repr, DecidableEq

/-- An OpenAPI document, reduced to what reference resolution consumes. -/
structure OADocument where
  paths : List OAOperation := []
  componentsSchemas : List (String × OASchema) := []
  deriving Repr, DecidableEq

/-- The references appearing inside one schema's fields. -/
def schemaRefs (s : OASchema) : List String :=
  s.fields.filterMap (fun f =>
    match f.2 with
    | .ref n => some n
    | .prim _ => none)

/-- The references used by one operation's request body and response bodies. -/
def opBodyRefNames (op : OAOperation) : List String :=
  op.requestBodyRef.toList ++ op.responses.filterMap Prod.snd

/-- All references used at an operation's use sites: request body, response
bodies, parameter schemas. -/
def opRefs (op : OAOperation) : List String :=
  opBodyRefNames op ++ op.paramSchemaRefs.filterMap Prod.snd

/-- The root set of references of a document: every use site in every
operation. -/
def docRootRefs (doc : OADocument) : List String :=
  doc.paths.flatMap opRefs

/-- Worklist resolution of schema references: pop a pending reference, fail if
it has no component schema, otherwise mark it resolved and enqueue the
references nested inside its schema (transitive resolution). Returns the
resolved names. `fuel` only bounds the recursion; `parseFuel` below always
suffices. -/
def resolveRefs (comps : List (String × OASchema)) :
    Nat → List String → List String → Except String (List String)
  | _, [], visited => Except.ok visited
  | 0, _ :: _, _ => Except.error "schema reference resolution did not terminate"
  | fuel + 1, n :: rest, visited =>
    if n ∈ visited then resolveRefs comps fuel rest visited
    else
      match assocGet comps n with
      | none => Except.error ("unresolvable schema reference: " ++ n)
      | some s => resolveRefs comps fuel (schemaRefs s ++ rest) (n :: visited)

/-- Total number of nested references across all component schemas. -/
def totalSchemaRefs (comps : List (String × OASchema)) : Nat :=
  (comps.map (fun c => (schemaRefs c.2).length)).sum

/-- A fuel bound that the resolution worklist can never exhaust. -/
def parseFuel (doc : OADocument) : Nat :=
  (docRootRefs doc).length +
    (doc.componentsSchemas.length + 1) * (totalSchemaRefs doc.componentsSchemas + 1)

def fieldKindName (fk : FieldKind) : String :=
  match fk with
  | .prim t => t
  | .ref n => n

/-- The `TypeDef` produced for one resolved reference, named by the reference's
final path segment. -/
def buildTypeDef (comps : List (String × OASchema)) (n : String) : TypeDef :=
  match assocGet comps n with
  | none => { Name := n }
  | some s =>
    { Name := n
      Description := s.description
      Fields := s.fields.map (fun f =>
        { Name := f.1, Type' := fieldKindName f.2 }) }

/-- The `Operation` produced for one path+method pair: a `TypeRef` at each use
site carries the referenced schema's name; the ID falls back to the
lower-cased method plus path when `operationId` is absent. -/
def buildOperation (op : OAOperation) : Operation :=
  { ID := if op.operationId = "" then op.method.toLower ++ op.path
          else op.operationId
    Name := op.operationId
    Method := op.method
    Path := op.path
    RequestBody := op.requestBodyRef.map (fun n => { TypeName := n })
    Responses := op.responses.map (fun r =>
      { StatusCode := r.1, Body := r.2.map (fun n => { TypeName := n }) })
    Parameters := op.paramSchemaRefs.map (fun pr =>
      { Name := pr.1, Type' := pr.2.getD "" }) }

/-- Modelled from the spec: the OpenAPI parser's `Parse`. It resolves every
schema reference reachable from the operations' use sites (transitively
through referenced schemas) before returning; an unresolvable reference is a
parse error. On success the partial IR holds one `Operation` per path+method
pair and one `TypeDef` per resolved reference. -/
def Parse (doc : OADocument) : Except String IntermediateRepr :=
  match resolveRefs doc.componentsSchemas (parseFuel doc) (docRootRefs doc) [] with
  | Except.error e => Except.error e
  | Except.ok names =>
    Except.ok
      { Operations := doc.paths.map buildOperation
        Types := names.map (buildTypeDef doc.componentsSchemas) }

/-- All `TypeRef.TypeName`s occurring in an IR's request bodies and response
bodies. -/
def irTypeRefNames (ir : IntermediateRepr) : List String :=
  ir.Operations.flatMap (fun o =>
    o.RequestBody.toList.map TypeRef.TypeName ++
    o.Responses.filterMap (fun r => r.Body.map TypeRef.TypeName))

/-- A reference reachable from the document's use sites: either used directly
by an operation, or nested inside the schema of a reachable resolvable
reference. -/
inductive RefReachable (doc : OADocument) : String → Prop where
  | root (n : String) : n ∈ docRootRefs doc → RefReachable doc n
  | step (m n : String) (s : OASchema) : RefReachable doc m →
      assocGet doc.componentsSchemas m = some s → n ∈ schemaRefs s →
      RefReachable doc n

/-- Everything pending or already visited when the worklist succeeds ends up
among the resolved names. -/
theorem resolveRefs_mem (comps : List (String × OASchema)) (fuel : Nat) :
    ∀ pending visited out,
      resolveRefs comps fuel pending visited = Except.ok out →
      ∀ n, n ∈ pending ∨ n ∈ visited → n ∈ out := by
  induction fuel with
  | zero =>
    intro pending visited out h n hn
    cases pending with
    | nil =>
      simp only [resolveRefs, Except.ok.injEq] at h
      subst h
      simpa using hn
    | cons p ps => simp [resolveRefs] at h
  | succ f ih =>
    intro pending visited out h n hn
    cases pending with
    | nil =>
      simp only [resolveRefs, Except.ok.injEq] at h
      subst h
      simpa using hn
    | cons p ps =>
      simp only [resolveRefs] at h
      by_cases hp : p ∈ visited
      · rw [if_pos hp] at h
        refine ih ps visited out h n ?_
        rcases hn with hn | hn
        · rcases List.mem_cons.mp hn with rfl | hn
          · exact Or.inr hp
          · exact Or.inl hn
        · exact Or.inr hn
      · rw [if_neg hp] at h
        cases hcomp : assocGet comps p with
        | none => rw [hcomp] at h; exact absurd h (by simp)
        | some s =>
          rw [hcomp] at h
          refine ih _ _ out h n ?_
          rcases hn with hn | hn
          · rcases List.mem_cons.mp hn with rfl | hn
            · exact Or.inr (List.mem_cons_self _ _)
            · exact Or.inl (List.mem_append_right _ hn)
          · exact Or.inr (List.mem_cons_of_mem _ hn)

/-- When the worklist succeeds, every resolved name that was not already
visited at the start has a component schema, and every reference nested in
that schema is itself among the resolved names. -/
theorem resolveRefs_closed (comps : List (String × OASchema)) (fuel : Nat) :
    ∀ pending visited out,
      resolveRefs comps fuel pending visited = Except.ok out →
      ∀ n ∈ out, n ∈ visited ∨
        ∃ s, assocGet comps n = some s ∧ ∀ m ∈ schemaRefs s, m ∈ out := by
  induction fuel with
  | zero =>
    intro pending visited out h n hn
    cases pending with
    | nil =>
      simp only [resolveRefs, Except.ok.injEq] at h
      subst h
      exact Or.inl hn
    | cons p ps => simp [resolveRefs] at h
  | succ f ih =>
    intro pending visited out h n hn
    cases pending with
    | nil =>
      simp only [resolveRefs, Except.ok.injEq] at h
      subst h
      exact Or.inl hn
    | cons p ps =>
      simp only [resolveRefs] at h
      by_cases hp : p ∈ visited
      · rw [if_pos hp] at h
        exact ih ps visited out h n hn
      · rw [if_neg hp] at h
        cases hcomp : assocGet comps p with
        | none => rw [hcomp] at h; exact absurd h (by simp)
        | some s =>
          rw [hcomp] at h
          rcases ih _ _ out h n hn with hv | hs
          · rcases List.mem_cons.mp hv with rfl | hv
            · refine Or.inr ⟨s, hcomp, fun m hm => ?_⟩
              exact resolveRefs_mem comps f _ _ out h m
                (Or.inl (List.mem_append_left _ hm))
            · exact Or.inl hv
          · exact Or.inr hs

/-- On success, every resolved reference points at a component schema. -/
theorem resolveRefs_resolvable (comps : List (String × OASchema)) (fuel : Nat)
    (pending out : List String)
    (h : resolveRefs comps fuel pending [] = Except.ok out) :
    ∀ n ∈ out, ∃ s, assocGet comps n = some s := by
  intro n hn
  rcases resolveRefs_closed comps fuel pending [] out h n hn with hv | ⟨s, hs, _⟩
  · simp at hv
  · exact ⟨s, hs⟩

/-- Every reference reachable from the document's use sites is among the
resolved names when `Parse` succeeds. -/
theorem parse_reachable_mem (doc : OADocument) (names : List String)
    (hres : resolveRefs doc.componentsSchemas (parseFuel doc)
      (docRootRefs doc) [] = Except.ok names) :
    ∀ n, RefReachable doc n → n ∈ names := by
  intro n hreach
  induction hreach with
  | root m hm => exact resolveRefs_mem _ _ _ _ _ hres m (Or.inl hm)
  | step m n' s hm hcomp hmem ihm =>
    rcases resolveRefs_closed _ _ _ _ _ hres m ihm with hv | ⟨s', hs', hsub⟩
    · simp at hv
    · rw [hcomp] at hs'
      exact hsub n' (Option.some_inj.mp hs' ▸ hmem)

/-- The body reference names of a built operation are exactly the
reference names of the source operation's request and response bodies. -/
theorem buildOperation_bodyRefNames (op : OAOperation) :
    (buildOperation op).RequestBody.toList.map TypeRef.TypeName ++
      (buildOperation op).Responses.filterMap (fun r =>
        r.Body.map TypeRef.TypeName) = opBodyRefNames op := by
  simp only [buildOperation, opBodyRefNames]
  congr 1
  · cases op.requestBodyRef <;> rfl
  · induction op.responses with
    | nil => rfl
    | cons r rest ih =>
      cases hr : r.2 <;> simp [List.filterMap_cons, hr, ih]

/-- The `TypeRef` names collected from a parsed IR are among the document's
root references. -/
theorem irTypeRefNames_subset_rootRefs (doc : OADocument)
    (names : List String) :
    ∀ n ∈ irTypeRefNames
      { Operations := doc.paths.map buildOperation
        Types := names.map (buildTypeDef doc.componentsSchemas) },
      n ∈ docRootRefs doc := by
  intro n hn
  simp only [irTypeRefNames, List.mem_flatMap, List.mem_map] at hn
  obtain ⟨o, ⟨op, hop, rfl⟩, hno⟩ := hn
  rw [buildOperation_bodyRefNames op] at hno
  simp only [docRootRefs, List.mem_flatMap]
  exact ⟨op, hop, List.mem_append_left _ hno⟩

/-- C3: when the modelled OpenAPI `Parse` accepts a document, every
`TypeRef.TypeName` in the returned partial IR (request bodies, response
bodies) and every referenced parameter schema name resolves to the `Name` of a
`TypeDef` in that same IR; and whenever a reference reachable from the
document's use sites (including transitively nested references) has no
component schema in the document, `Parse` returns a parse error rather than
dropping the reference. -/
theorem openapi_parse_refs_resolve :
    (∀ doc ir, Parse doc = Except.ok ir →
      (∀ n ∈ irTypeRefNames ir, ∃ td ∈ ir.Types, td.Name = n) ∧
      (∀ op ∈ doc.paths, ∀ pr ∈ op.paramSchemaRefs, ∀ n,
        pr.2 = some n → ∃ td ∈ ir.Types, td.Name = n)) ∧
    (∀ doc n, RefReachable doc n →
      assocGet doc.componentsSchemas n = none →
      ∃ e, Parse doc = Except.error e) := by
  have buildName : ∀ comps n, (buildTypeDef comps n).Name = n := by
    intro comps n
    unfold buildTypeDef
    cases assocGet comps n <;> rfl
  constructor
  · intro doc ir hok
    cases hres : resolveRefs doc.componentsSchemas (parseFuel doc)
        (docRootRefs doc) [] with
    | error e => simp [Parse, hres] at hok
    | ok names =>
      simp only [Parse, hres, Except.ok.injEq] at hok
      subst hok
      constructor
      · intro n hn
        have hroot := irTypeRefNames_subset_rootRefs doc names n hn
        have hmem := resolveRefs_mem _ _ _ _ _ hres n (Or.inl hroot)
        exact ⟨buildTypeDef doc.componentsSchemas n,
          List.mem_map.mpr ⟨n, hmem, rfl⟩, buildName _ n⟩
      · intro op hop pr hpr n hn
        have hroot : n ∈ docRootRefs doc := by
          simp only [docRootRefs, List.mem_flatMap]
          refine ⟨op, hop, List.mem_append_right _ ?_⟩
          exact List.mem_filterMap.mpr ⟨pr, hpr, hn⟩
        have hmem := resolveRefs_mem _ _ _ _ _ hres n (Or.inl hroot)
        exact ⟨buildTypeDef doc.componentsSchemas n,
          List.mem_map.mpr ⟨n, hmem, rfl⟩, buildName _ n⟩
  · intro doc n hreach hnone
    cases hres : resolveRefs doc.componentsSchemas (parseFuel doc)
        (docRootRefs doc) [] with
    | error e => exact ⟨e, by simp [Parse, hres]⟩
    | ok names =>
      exfalso
      have hmem := parse_reachable_mem doc names hres n hreach
      rcases resolveRefs_resolvable _ _ _ _ hres n hmem with ⟨s, hs⟩
      rw [hnone] at hs
      exact Option.noConfusion hs

/-- A resolvable petstore-like document for the C3 witness: the response body
references `Pet`, whose schema references `Tag` transitively. -/
def doc0 : OADocument :=
  { paths := [{ operationId := "listPets", method := "GET", path := "/pets",
                responses := [("200", some "Pet")] }]
    componentsSchemas :=
      [("Pet", { description := "A pet",
                 fields := [("name", .prim "string"), ("tag", .ref "Tag")] }),
       ("Tag", { fields := [("id", .prim "integer")] })] }

/-- A document with a dangling transitive reference for the C3 witness: the
response body references `Thing`, whose schema references the absent
`Missing`. -/
def docBad : OADocument :=
  { paths := [{ operationId := "getThing", method := "GET", path := "/thing",
                responses := [("200", some "Thing")] }]
    componentsSchemas :=
      [("Thing", { fields := [("missing", .ref "Missing")] })] }

/-- Witness for C3: `doc0` parses and every collected `TypeRef` name resolves
to a `TypeDef`; `docBad` has a reachable unresolvable reference and `Parse`
rejects it with an error. -/
theorem openapi_parse_refs_resolve_witness :
    (∃ ir, Parse doc0 = Except.ok ir ∧
      ∀ n ∈ irTypeRefNames ir, ∃ td ∈ ir.Types, td.Name = n) ∧
    (RefReachable docBad "Missing" ∧
      assocGet docBad.componentsSchemas "Missing" = none ∧
      ∃ e, Parse docBad = Except.error e) := by
  constructor
  · cases hok : Parse doc0 with
    | error e =>
      exfalso
      have hdec : (Parse doc0).isOk = true := by decide
      rw [hok] at hdec
      exact Bool.noConfusion hdec
    | ok ir =>
      exact ⟨ir, rfl, (openapi_parse_refs_resolve.1 doc0 ir hok).1⟩
  · have hreach : RefReachable docBad "Missing" :=
      RefReachable.step "Thing" "Missing"
        { fields := [("missing", FieldKind.ref "Missing")] }
        (RefReachable.root "Thing" (by decide)) (by decide) (by decide)
    exact ⟨hreach, by decide,
      openapi_parse_refs_resolve.2 docBad "Missing" hreach (by decide)⟩

end SkillCompiler
